import Mathlib

/-!
Verification of the budget allocator core of the stock-market assistant
(`get_budget_optimized_stocks`, `optimize_portfolio`, and the affordable
single-stock filter in `process_query`).

Numbers are modelled by exact rationals; Python `int()` (truncation toward
zero) is `pyint`; Python `sorted` with a key and `reverse=True` is the stable
`List.mergeSort` with the flipped comparison on keys.  A Python
`ZeroDivisionError` (raised by the sort key `future_potential / current_price`
or by `int(budget / current_price)` when a record has zero price) is modelled
by `Except.error`.
-/

/-- An analysed stock record, as consumed by the allocator: the fields of the
`analysis` dict that the allocator reads. -/
structure ScoredAsset where
  symbol : String
  current_price : ℚ
  future_potential : ℚ
deriving DecidableEq

/-- One `stock_allocation` dict appended to the portfolio. -/
structure AllocationLine where
  symbol : String
  shares : ℤ
  cost : ℚ
  potential_return : ℚ
deriving DecidableEq

/-- Python `int()` applied to a (rational-valued) number: truncation toward
zero. -/
def pyint (q : ℚ) : ℤ := if q < 0 then -⌊-q⌋ else ⌊q⌋

/-- The sort key `x['future_potential'] / x['current_price']` of
`optimize_portfolio`. -/
def efficiency (s : ScoredAsset) : ℚ := s.future_potential / s.current_price

/-- Python `sorted(stocks, key=efficiency, reverse=True)`: stable sort,
efficiency descending, ties in original order. -/
def sortByEfficiencyDesc (stocks : List ScoredAsset) : List ScoredAsset :=
  stocks.mergeSort (fun a b => decide (efficiency b ≤ efficiency a))

/-- The `for stock in stocks_by_efficiency` loop of `optimize_portfolio`:
threads `remaining_budget`, emits a `stock_allocation` whenever
`remaining_budget >= current_price` and `possible_shares > 0`. -/
def greedyAlloc : List ScoredAsset → ℚ → List AllocationLine
  | [], _ => []
  | s :: rest, remaining =>
    if s.current_price ≤ remaining then
      if 0 < pyint (remaining / s.current_price) then
        { symbol := s.symbol
          shares := pyint (remaining / s.current_price)
          cost := (pyint (remaining / s.current_price) : ℚ) * s.current_price
          potential_return :=
            (pyint (remaining / s.current_price) : ℚ) * s.current_price *
              s.future_potential / 100 }
          :: greedyAlloc rest
              (remaining - (pyint (remaining / s.current_price) : ℚ) * s.current_price)
      else greedyAlloc rest remaining
    else greedyAlloc rest remaining

/-- The method `optimize_portfolio(stocks, budget)`.  Evaluating the sort key
raises `ZeroDivisionError` when some record has `current_price == 0`;
otherwise the greedy loop runs over the efficiency-sorted list. -/
def optimize_portfolio (stocks : List ScoredAsset) (budget : ℚ) :
    Except String (List AllocationLine) :=
  if stocks.any (fun s => s.current_price = 0) then .error "ZeroDivisionError"
  else .ok (greedyAlloc (sortByEfficiencyDesc stocks) budget)

/-- The method `get_budget_optimized_stocks(budget)`, abstracted over the list
of analysed records it iterates: keeps records with
`int(budget / current_price) > 0` (raising `ZeroDivisionError` on a zero
price), returns `single_stock` (sorted by `future_potential` descending,
stable) together with `optimize_portfolio` on the kept records. -/
def get_budget_optimized_stocks (stocks : List ScoredAsset) (budget : ℚ) :
    Except String (List ScoredAsset × List AllocationLine) :=
  if stocks.any (fun s => s.current_price = 0) then .error "ZeroDivisionError"
  else
    let all_stocks := stocks.filter (fun s => decide (0 < pyint (budget / s.current_price)))
    let single_stock :=
      all_stocks.mergeSort (fun a b => decide (b.future_potential ≤ a.future_potential))
    .ok (single_stock, greedyAlloc (sortByEfficiencyDesc all_stocks) budget)

/-- The `affordable_stocks` filter of `process_query`, applied to the
`single_stock` component of `get_budget_optimized_stocks`. -/
def affordable_single_stocks (stocks : List ScoredAsset) (budget : ℚ) :
    Except String (List ScoredAsset) :=
  (get_budget_optimized_stocks stocks budget).map
    (fun r => r.1.filter (fun s => decide (s.current_price ≤ budget)))

/-! ### Reference algorithm as worded by the specification -/

/-- The spec's greedy loop: iterate the sorted list once; for each asset with
`remaining_budget >= current_price`, take
`possible_shares = floor(remaining_budget / current_price)`; whenever
`possible_shares >= 1`, emit an AllocationLine with `cost = shares * price` and
`potential_return = cost * future_potential / 100`, and decrement the
remaining budget by the cost. -/
def specGreedyLoop : List ScoredAsset → ℚ → List AllocationLine
  | [], _ => []
  | s :: rest, remaining =>
    if s.current_price ≤ remaining then
      if 1 ≤ ⌊remaining / s.current_price⌋ then
        { symbol := s.symbol
          shares := ⌊remaining / s.current_price⌋
          cost := (⌊remaining / s.current_price⌋ : ℚ) * s.current_price
          potential_return :=
            (⌊remaining / s.current_price⌋ : ℚ) * s.current_price *
              s.future_potential / 100 }
          :: specGreedyLoop rest
              (remaining - (⌊remaining / s.current_price⌋ : ℚ) * s.current_price)
      else specGreedyLoop rest remaining
    else specGreedyLoop rest remaining

/-- The spec's reference greedy portfolio: sort by efficiency descending
(stable), then run the single greedy pass. -/
def specGreedy (stocks : List ScoredAsset) (budget : ℚ) : List AllocationLine :=
  specGreedyLoop (sortByEfficiencyDesc stocks) budget

/-- The spec's `rank_single`: the subsequence of assets with
`current_price <= budget`, ordered by `future_potential` descending, ties in
original input order. -/
def rank_single_spec (stocks : List ScoredAsset) (budget : ℚ) : List ScoredAsset :=
  (stocks.filter (fun s => decide (s.current_price ≤ budget))).mergeSort
    (fun a b => decide (b.future_potential ≤ a.future_potential))

/-- Sum of the `cost` fields of a portfolio. -/
def totalCost (lines : List AllocationLine) : ℚ :=
  (lines.map AllocationLine.cost).sum

/-! ### Concrete inputs used in examples and witnesses -/

/-- The spec's worked example: A at price 100 with potential 20, B at price 50
with potential 15. -/
def demoStocks : List ScoredAsset :=
  [⟨"A", 100, 20⟩, ⟨"B", 50, 15⟩]

/-- Two records sharing the symbol X at different prices. -/
def dupStocks : List ScoredAsset :=
  [⟨"X", 50, 100⟩, ⟨"X", 10, 10⟩]

/-- A single record with zero price. -/
def zeroPriceStocks : List ScoredAsset :=
  [⟨"Z", 0, 10⟩]

/-! ### Helper lemmas -/

theorem mergeSort_pair {α : Type} (a b : α) (le : α → α → Bool) :
    [a, b].mergeSort le = if le a b then [a, b] else [b, a] := by
  cases h : le a b <;> simp [List.mergeSort, List.merge, h]

theorem pyint_of_nonneg {q : ℚ} (h : 0 ≤ q) : pyint q = ⌊q⌋ := by
  unfold pyint
  rw [if_neg (not_lt.mpr h)]

theorem pyint_nonpos {q : ℚ} (h : q ≤ 0) : pyint q ≤ 0 := by
  unfold pyint
  by_cases hq : q < 0
  · rw [if_pos hq]
    have : (0:ℤ) ≤ ⌊-q⌋ := Int.floor_nonneg.mpr (by linarith)
    omega
  · rw [if_neg hq]
    have hq0 : q = 0 := le_antisymm h (not_lt.mp hq)
    simp [hq0]

theorem greedyAlloc_eq_specLoop :
    ∀ (l : List ScoredAsset) (r : ℚ),
      (∀ s ∈ l, 0 < s.current_price) → greedyAlloc l r = specGreedyLoop l r
  | [], _, _ => rfl
  | s :: rest, r, h => by
    have hs : 0 < s.current_price := h s (List.mem_cons_self s rest)
    have hrest : ∀ x ∈ rest, 0 < x.current_price :=
      fun x hx => h x (List.mem_cons_of_mem s hx)
    by_cases hle : s.current_price ≤ r
    · have hq : (1:ℚ) ≤ r / s.current_price := (one_le_div hs).mpr hle
      have hq0 : (0:ℚ) ≤ r / s.current_price := le_trans zero_le_one hq
      have hpy : pyint (r / s.current_price) = ⌊r / s.current_price⌋ :=
        pyint_of_nonneg hq0
      have hfl : 1 ≤ ⌊r / s.current_price⌋ := by
        rw [Int.le_floor]
        exact_mod_cast hq
      simp only [greedyAlloc, specGreedyLoop, hpy]
      rw [if_pos hle, if_pos hle, if_pos (by omega : (0:ℤ) < ⌊r / s.current_price⌋),
        if_pos hfl]
      exact congrArg _ (greedyAlloc_eq_specLoop rest _ hrest)
    · simp only [greedyAlloc, specGreedyLoop]
      rw [if_neg hle, if_neg hle]
      exact greedyAlloc_eq_specLoop rest r hrest

theorem no_zero_price_any {stocks : List ScoredAsset}
    (h : ∀ s ∈ stocks, s.current_price ≠ 0) :
    (stocks.any (fun s => s.current_price = 0)) = false := by
  rw [List.any_eq_false]
  intro s hs
  simpa using h s hs

theorem mem_sortByEfficiencyDesc {s : ScoredAsset} {stocks : List ScoredAsset} :
    s ∈ sortByEfficiencyDesc stocks ↔ s ∈ stocks := by
  unfold sortByEfficiencyDesc
  exact List.mem_mergeSort

/-! ### C1: the allocator equals the spec's reference greedy algorithm -/

/-- C1: for positive prices and positive budget, `optimize_portfolio` returns
exactly the portfolio of the reference greedy algorithm: stable sort by
efficiency descending, then a single pass taking
`floor(remaining / price)` shares whenever affordable, decrementing the
remaining budget, never revisiting an asset. -/
theorem optimize_portfolio_eq_specGreedy (stocks : List ScoredAsset) (budget : ℚ)
    (hpos : ∀ s ∈ stocks, 0 < s.current_price) (hB : 0 < budget) :
    optimize_portfolio stocks budget = .ok (specGreedy stocks budget) := by
  have hz : (stocks.any (fun s => s.current_price = 0)) = false :=
    no_zero_price_any (fun s hs => ne_of_gt (hpos s hs))
  unfold optimize_portfolio specGreedy
  rw [hz]
  simp only [Bool.false_eq_true, if_false]
  exact congrArg _ (greedyAlloc_eq_specLoop _ budget
    (fun s hs => hpos s (mem_sortByEfficiencyDesc.mp hs)))

/-! ### C3: budget safety invariants -/

/-- Budget bookkeeping along a portfolio: starting from `r`, the tracked
remaining budget is nonnegative at every step, each line's cost is at most the
remaining budget at the moment that line is selected, and the final remaining
budget is still nonnegative. -/
def budgetChainB : ℚ → List AllocationLine → Bool
  | r, [] => decide (0 ≤ r)
  | r, l :: ls => (decide (0 ≤ r) && decide (l.cost ≤ r)) && budgetChainB (r - l.cost) ls

theorem greedyAlloc_shares_pos :
    ∀ (l : List ScoredAsset) (r : ℚ), ∀ line ∈ greedyAlloc l r, 1 ≤ line.shares
  | [], _, _, hmem => by simp [greedyAlloc] at hmem
  | s :: rest, r, line, hmem => by
    by_cases hle : s.current_price ≤ r
    · by_cases hsh : 0 < pyint (r / s.current_price)
      · rw [greedyAlloc, if_pos hle, if_pos hsh] at hmem
        rcases List.mem_cons.mp hmem with hhd | htl
        · rw [hhd]
          show 1 ≤ pyint (r / s.current_price)
          omega
        · exact greedyAlloc_shares_pos rest _ line htl
      · rw [greedyAlloc, if_pos hle, if_neg hsh] at hmem
        exact greedyAlloc_shares_pos rest r line hmem
    · rw [greedyAlloc, if_neg hle] at hmem
      exact greedyAlloc_shares_pos rest r line hmem

theorem selected_cost_le {r p : ℚ} (hp : 0 < p) (hle : p ≤ r) :
    (pyint (r / p) : ℚ) * p ≤ r := by
  have hq0 : (0:ℚ) ≤ r / p := le_trans zero_le_one ((one_le_div hp).mpr hle)
  rw [pyint_of_nonneg hq0]
  calc (⌊r / p⌋ : ℚ) * p ≤ (r / p) * p :=
        mul_le_mul_of_nonneg_right (Int.floor_le _) (le_of_lt hp)
    _ = r := div_mul_cancel₀ r (ne_of_gt hp)

theorem greedyAlloc_budgetChain :
    ∀ (l : List ScoredAsset) (r : ℚ),
      (∀ s ∈ l, 0 < s.current_price) → 0 ≤ r →
      budgetChainB r (greedyAlloc l r) = true
  | [], r, _, hr => by simp [greedyAlloc, budgetChainB, hr]
  | s :: rest, r, h, hr => by
    have hs : 0 < s.current_price := h s (List.mem_cons_self s rest)
    have hrest : ∀ x ∈ rest, 0 < x.current_price :=
      fun x hx => h x (List.mem_cons_of_mem s hx)
    by_cases hle : s.current_price ≤ r
    · by_cases hsh : 0 < pyint (r / s.current_price)
      · rw [greedyAlloc, if_pos hle, if_pos hsh]
        have hcost : (pyint (r / s.current_price) : ℚ) * s.current_price ≤ r :=
          selected_cost_le hs hle
        rw [budgetChainB]
        have hrec := greedyAlloc_budgetChain rest
          (r - (pyint (r / s.current_price) : ℚ) * s.current_price) hrest
          (by linarith)
        simp only [hrec, decide_eq_true_eq]
        simp [hr, hcost]
      · rw [greedyAlloc, if_pos hle, if_neg hsh]
        exact greedyAlloc_budgetChain rest r hrest hr
    · rw [greedyAlloc, if_neg hle]
      exact greedyAlloc_budgetChain rest r hrest hr

theorem budgetChain_totalCost :
    ∀ (lines : List AllocationLine) (r : ℚ),
      budgetChainB r lines = true → totalCost lines ≤ r
  | [], r, h => by
    simp only [budgetChainB, decide_eq_true_eq] at h
    simpa [totalCost] using h
  | l :: ls, r, h => by
    rw [budgetChainB] at h
    simp only [Bool.and_eq_true, decide_eq_true_eq] at h
    obtain ⟨⟨hr, hcost⟩, hrec⟩ := h
    have := budgetChain_totalCost ls (r - l.cost) hrec
    simp only [totalCost, List.map_cons, List.sum_cons]
    have : (ls.map AllocationLine.cost).sum ≤ r - l.cost := this
    linarith

/-- C3: with positive prices and a positive budget, every allocation line has
at least one share, each line's cost is at most the budget remaining at the
moment it is selected, the tracked remaining budget never becomes negative,
and the total cost never exceeds the initial budget. -/
theorem optimize_portfolio_budget_safe (stocks : List ScoredAsset) (budget : ℚ)
    (hpos : ∀ s ∈ stocks, 0 < s.current_price) (hB : 0 < budget) :
    ∃ lines, optimize_portfolio stocks budget = .ok lines ∧
      (∀ line ∈ lines, 1 ≤ line.shares) ∧
      budgetChainB budget lines = true ∧
      totalCost lines ≤ budget := by
  have hz : (stocks.any (fun s => s.current_price = 0)) = false :=
    no_zero_price_any (fun s hs => ne_of_gt (hpos s hs))
  have hsorted : ∀ s ∈ sortByEfficiencyDesc stocks, 0 < s.current_price :=
    fun s hs => hpos s (mem_sortByEfficiencyDesc.mp hs)
  refine ⟨greedyAlloc (sortByEfficiencyDesc stocks) budget, ?_, ?_, ?_, ?_⟩
  · unfold optimize_portfolio
    rw [hz]
    simp
  · exact greedyAlloc_shares_pos _ budget
  · exact greedyAlloc_budgetChain _ budget hsorted (le_of_lt hB)
  · exact budgetChain_totalCost _ budget
      (greedyAlloc_budgetChain _ budget hsorted (le_of_lt hB))

/-! ### C10: maximality of each selection -/

/-- Along a portfolio: starting from `r`, immediately after each selection the
remaining budget is strictly below the selected asset's unit price, which is
recovered from the line as `cost / shares`. -/
def dropChainB : ℚ → List AllocationLine → Bool
  | _, [] => true
  | r, l :: ls => decide (r - l.cost < l.cost / (l.shares : ℚ)) && dropChainB (r - l.cost) ls

theorem selected_rem_lt {r p : ℚ} (hp : 0 < p) (hle : p ≤ r) :
    r - (pyint (r / p) : ℚ) * p < p := by
  have hq0 : (0:ℚ) ≤ r / p := le_trans zero_le_one ((one_le_div hp).mpr hle)
  rw [pyint_of_nonneg hq0]
  have hlt : r / p < (⌊r / p⌋ : ℚ) + 1 := Int.lt_floor_add_one _
  have := mul_lt_mul_of_pos_right hlt hp
  rw [div_mul_cancel₀ r (ne_of_gt hp)] at this
  linarith

theorem greedyAlloc_cost_le :
    ∀ (l : List ScoredAsset) (r : ℚ),
      (∀ s ∈ l, 0 < s.current_price) → 0 ≤ r →
      ∀ line ∈ greedyAlloc l r, line.cost ≤ r
  | [], _, _, _, _, hmem => by simp [greedyAlloc] at hmem
  | s :: rest, r, h, hr, line, hmem => by
    have hs : 0 < s.current_price := h s (List.mem_cons_self s rest)
    have hrest : ∀ x ∈ rest, 0 < x.current_price :=
      fun x hx => h x (List.mem_cons_of_mem s hx)
    by_cases hle : s.current_price ≤ r
    · by_cases hsh : 0 < pyint (r / s.current_price)
      · rw [greedyAlloc, if_pos hle, if_pos hsh] at hmem
        have hcost : (pyint (r / s.current_price) : ℚ) * s.current_price ≤ r :=
          selected_cost_le hs hle
        rcases List.mem_cons.mp hmem with hhd | htl
        · rw [hhd]
          exact hcost
        · have := greedyAlloc_cost_le rest
            (r - (pyint (r / s.current_price) : ℚ) * s.current_price) hrest
            (by linarith) line htl
          linarith [mul_pos (by exact_mod_cast hsh :
            (0:ℚ) < (pyint (r / s.current_price) : ℚ)) hs]
      · rw [greedyAlloc, if_pos hle, if_neg hsh] at hmem
        exact greedyAlloc_cost_le rest r hrest hr line hmem
    · rw [greedyAlloc, if_neg hle] at hmem
      exact greedyAlloc_cost_le rest r hrest hr line hmem

theorem greedyAlloc_dropChain :
    ∀ (l : List ScoredAsset) (r : ℚ),
      (∀ s ∈ l, 0 < s.current_price) → 0 ≤ r →
      dropChainB r (greedyAlloc l r) = true
  | [], _, _, _ => by simp [greedyAlloc, dropChainB]
  | s :: rest, r, h, hr => by
    have hs : 0 < s.current_price := h s (List.mem_cons_self s rest)
    have hrest : ∀ x ∈ rest, 0 < x.current_price :=
      fun x hx => h x (List.mem_cons_of_mem s hx)
    by_cases hle : s.current_price ≤ r
    · by_cases hsh : 0 < pyint (r / s.current_price)
      · rw [greedyAlloc, if_pos hle, if_pos hsh, dropChainB]
        have hcost : (pyint (r / s.current_price) : ℚ) * s.current_price ≤ r :=
          selected_cost_le hs hle
        have hdiv : ((pyint (r / s.current_price) : ℚ) * s.current_price) /
            (pyint (r / s.current_price) : ℚ) = s.current_price :=
          mul_div_cancel_left₀ _ (by exact_mod_cast ne_of_gt hsh)
        have hrec := greedyAlloc_dropChain rest
          (r - (pyint (r / s.current_price) : ℚ) * s.current_price) hrest
          (by linarith)
        simp only [hrec, Bool.and_true, decide_eq_true_eq]
        show r - (pyint (r / s.current_price) : ℚ) * s.current_price <
          (pyint (r / s.current_price) : ℚ) * s.current_price /
            (pyint (r / s.current_price) : ℚ)
        rw [hdiv]
        exact selected_rem_lt hs hle
      · rw [greedyAlloc, if_pos hle, if_neg hsh]
        exact greedyAlloc_dropChain rest r hrest hr
    · rw [greedyAlloc, if_neg hle]
      exact greedyAlloc_dropChain rest r hrest hr

theorem greedyAlloc_costs_decreasing :
    ∀ (l : List ScoredAsset) (r : ℚ),
      (∀ s ∈ l, 0 < s.current_price) → 0 ≤ r →
      (greedyAlloc l r).Pairwise (fun a b => b.cost < a.cost)
  | [], _, _, _ => by simp [greedyAlloc]
  | s :: rest, r, h, hr => by
    have hs : 0 < s.current_price := h s (List.mem_cons_self s rest)
    have hrest : ∀ x ∈ rest, 0 < x.current_price :=
      fun x hx => h x (List.mem_cons_of_mem s hx)
    by_cases hle : s.current_price ≤ r
    · by_cases hsh : 0 < pyint (r / s.current_price)
      · rw [greedyAlloc, if_pos hle, if_pos hsh]
        have hcost : (pyint (r / s.current_price) : ℚ) * s.current_price ≤ r :=
          selected_cost_le hs hle
        refine List.Pairwise.cons ?_
          (greedyAlloc_costs_decreasing rest _ hrest (by linarith))
        intro b hb
        have hble := greedyAlloc_cost_le rest
          (r - (pyint (r / s.current_price) : ℚ) * s.current_price) hrest
          (by linarith) b hb
        have hrem := selected_rem_lt hs hle
        have hone : (1:ℚ) ≤ (pyint (r / s.current_price) : ℚ) := by
          exact_mod_cast hsh
        have hpc : s.current_price ≤ (pyint (r / s.current_price) : ℚ) * s.current_price := by
          nlinarith
        show b.cost < (pyint (r / s.current_price) : ℚ) * s.current_price
        linarith
      · rw [greedyAlloc, if_pos hle, if_neg hsh]
        exact greedyAlloc_costs_decreasing rest r hrest hr
    · rw [greedyAlloc, if_neg hle]
      exact greedyAlloc_costs_decreasing rest r hrest hr

/-- C10: with positive prices and a positive budget, immediately after each
selection the remaining budget is strictly below the selected asset's unit
price (the floor division takes the maximal affordable share count), and
hence the line costs are strictly decreasing along the selection order. -/
theorem optimize_portfolio_selections_maximal (stocks : List ScoredAsset) (budget : ℚ)
    (hpos : ∀ s ∈ stocks, 0 < s.current_price) (hB : 0 < budget) :
    ∃ lines, optimize_portfolio stocks budget = .ok lines ∧
      dropChainB budget lines = true ∧
      lines.Pairwise (fun a b => b.cost < a.cost) := by
  have hz : (stocks.any (fun s => s.current_price = 0)) = false :=
    no_zero_price_any (fun s hs => ne_of_gt (hpos s hs))
  have hsorted : ∀ s ∈ sortByEfficiencyDesc stocks, 0 < s.current_price :=
    fun s hs => hpos s (mem_sortByEfficiencyDesc.mp hs)
  refine ⟨greedyAlloc (sortByEfficiencyDesc stocks) budget, ?_, ?_, ?_⟩
  · unfold optimize_portfolio
    rw [hz]
    simp
  · exact greedyAlloc_dropChain _ budget hsorted (le_of_lt hB)
  · exact greedyAlloc_costs_decreasing _ budget hsorted (le_of_lt hB)

/-! ### C4: the affordable single-stock ranking -/

theorem pyint_pos_iff_affordable {budget p : ℚ} (hp : 0 < p) (hB : 0 < budget) :
    0 < pyint (budget / p) ↔ p ≤ budget := by
  constructor
  · intro hpy
    have hq0 : (0:ℚ) ≤ budget / p := le_of_lt (div_pos hB hp)
    rw [pyint_of_nonneg hq0] at hpy
    have h1 : (1:ℚ) ≤ budget / p := by
      have : (1:ℤ) ≤ ⌊budget / p⌋ := hpy
      calc (1:ℚ) ≤ (⌊budget / p⌋ : ℚ) := by exact_mod_cast this
        _ ≤ budget / p := Int.floor_le _
    exact (one_le_div hp).mp h1
  · intro hle
    have h1 : (1:ℚ) ≤ budget / p := (one_le_div hp).mpr hle
    rw [pyint_of_nonneg (le_trans zero_le_one h1)]
    have : (1:ℤ) ≤ ⌊budget / p⌋ := by
      rw [Int.le_floor]
      exact_mod_cast h1
    omega

/-- C4: for positive prices and a positive budget, the affordable single-stock
ranking is exactly the subsequence of input assets with
`current_price <= budget`, sorted by `future_potential` descending with ties
in original input order; when no asset is affordable it is the empty list,
not an error. -/
theorem affordable_single_stocks_eq_spec (stocks : List ScoredAsset) (budget : ℚ)
    (hne : stocks ≠ []) (hpos : ∀ s ∈ stocks, 0 < s.current_price)
    (hB : 0 < budget) :
    affordable_single_stocks stocks budget = .ok (rank_single_spec stocks budget) ∧
    ((∀ s ∈ stocks, ¬ s.current_price ≤ budget) →
      rank_single_spec stocks budget = []) := by
  have hz : (stocks.any (fun s => s.current_price = 0)) = false :=
    no_zero_price_any (fun s hs => ne_of_gt (hpos s hs))
  have hfilter : stocks.filter (fun s => decide (0 < pyint (budget / s.current_price)))
      = stocks.filter (fun s => decide (s.current_price ≤ budget)) := by
    apply List.filter_congr
    intro s hs
    rw [decide_eq_decide]
    exact pyint_pos_iff_affordable (hpos s hs) hB
  constructor
  · unfold affordable_single_stocks get_budget_optimized_stocks
    rw [hz]
    simp only [Bool.false_eq_true, if_false, Except.map]
    rw [hfilter]
    unfold rank_single_spec
    congr 1
    apply List.filter_eq_self.mpr
    intro x hx
    have hx' : x ∈ stocks.filter (fun s => decide (s.current_price ≤ budget)) :=
      List.mem_mergeSort.mp hx
    exact (List.mem_filter.mp hx').2
  · intro hnone
    unfold rank_single_spec
    have hnil : stocks.filter (fun s => decide (s.current_price ≤ budget)) = [] := by
      rw [List.filter_eq_nil_iff]
      intro a ha
      simpa using hnone a ha
    rw [hnil]
    exact List.mergeSort_nil

/-! ### C5 and C6: negative prices, duplicate symbols -/

theorem greedyAlloc_skips_nonpos :
    ∀ (l : List ScoredAsset) (r : ℚ),
      (∀ s ∈ l, s.current_price ≠ 0) → 0 ≤ r →
      greedyAlloc l r =
        greedyAlloc (l.filter (fun s => decide (0 < s.current_price))) r
  | [], _, _, _ => rfl
  | s :: rest, r, h, hr => by
    have hs : s.current_price ≠ 0 := h s (List.mem_cons_self s rest)
    have hrest : ∀ x ∈ rest, x.current_price ≠ 0 :=
      fun x hx => h x (List.mem_cons_of_mem s hx)
    by_cases hp : 0 < s.current_price
    · rw [List.filter_cons_of_pos (by simpa using hp)]
      by_cases hle : s.current_price ≤ r
      · by_cases hsh : 0 < pyint (r / s.current_price)
        · rw [greedyAlloc, if_pos hle, if_pos hsh,
            greedyAlloc, if_pos hle, if_pos hsh]
          have hcost : (pyint (r / s.current_price) : ℚ) * s.current_price ≤ r :=
            selected_cost_le hp hle
          exact congrArg _ (greedyAlloc_skips_nonpos rest _ hrest (by linarith))
        · rw [greedyAlloc, if_pos hle, if_neg hsh,
            greedyAlloc, if_pos hle, if_neg hsh]
          exact greedyAlloc_skips_nonpos rest r hrest hr
      · rw [greedyAlloc, if_neg hle, greedyAlloc, if_neg hle]
        exact greedyAlloc_skips_nonpos rest r hrest hr
    · have hneg : s.current_price < 0 := lt_of_le_of_ne (not_lt.mp hp) hs
      rw [List.filter_cons_of_neg (by simpa using hp)]
      have hle : s.current_price ≤ r := le_trans (le_of_lt hneg) hr
      have hq : r / s.current_price ≤ 0 := by
        rw [div_nonpos_iff]
        exact Or.inl ⟨hr, le_of_lt hneg⟩
      have hsh : ¬ 0 < pyint (r / s.current_price) :=
        not_lt.mpr (pyint_nonpos hq)
      rw [greedyAlloc, if_pos hle, if_neg hsh]
      exact greedyAlloc_skips_nonpos rest r hrest hr

/-- C5 amended: when every record has a nonzero price and the budget is
positive, neither function raises; records with a negative price are silently
excluded (the greedy pass emits nothing for them and the ranking omits
them).  A zero-price record, by contrast, raises `ZeroDivisionError` (see the
counterexample). -/
theorem nonzero_prices_never_raise (stocks : List ScoredAsset) (budget : ℚ)
    (hnz : ∀ s ∈ stocks, s.current_price ≠ 0) (hB : 0 < budget) :
    optimize_portfolio stocks budget =
      .ok (greedyAlloc ((sortByEfficiencyDesc stocks).filter
        (fun s => decide (0 < s.current_price))) budget) ∧
    ∃ pr, get_budget_optimized_stocks stocks budget = .ok pr ∧
      ∀ s ∈ pr.1, 0 < s.current_price := by
  have hz : (stocks.any (fun s => s.current_price = 0)) = false :=
    no_zero_price_any hnz
  constructor
  · unfold optimize_portfolio
    rw [hz]
    simp only [Bool.false_eq_true, if_false]
    exact congrArg _ (greedyAlloc_skips_nonpos _ budget
      (fun s hs => hnz s (mem_sortByEfficiencyDesc.mp hs)) (le_of_lt hB))
  · refine ⟨((stocks.filter (fun s => decide (0 < pyint (budget / s.current_price)))).mergeSort
        (fun a b => decide (b.future_potential ≤ a.future_potential)),
      greedyAlloc (sortByEfficiencyDesc
        (stocks.filter (fun s => decide (0 < pyint (budget / s.current_price)))))
        budget), ?_, ?_⟩
    · unfold get_budget_optimized_stocks
      rw [hz]
      simp only [Bool.false_eq_true, if_false]
    · intro s hs
      have hs' : s ∈ stocks.filter (fun s => decide (0 < pyint (budget / s.current_price))) :=
        List.mem_mergeSort.mp hs
      have hpy : 0 < pyint (budget / s.current_price) := by
        simpa using (List.mem_filter.mp hs').2
      have hmem : s ∈ stocks := (List.mem_filter.mp hs').1
      rcases lt_trichotomy s.current_price 0 with hneg | hzero | hpos
      · exfalso
        have hq : budget / s.current_price ≤ 0 := by
          rw [div_nonpos_iff]
          exact Or.inl ⟨le_of_lt hB, le_of_lt hneg⟩
        exact absurd hpy (not_lt.mpr (pyint_nonpos hq))
      · exact absurd hzero (hnz s hmem)
      · exact hpos

theorem greedyAlloc_symbols_sublist :
    ∀ (l : List ScoredAsset) (r : ℚ),
      ((greedyAlloc l r).map AllocationLine.symbol).Sublist
        (l.map ScoredAsset.symbol)
  | [], _ => by simp [greedyAlloc]
  | s :: rest, r => by
    by_cases hle : s.current_price ≤ r
    · by_cases hsh : 0 < pyint (r / s.current_price)
      · rw [greedyAlloc, if_pos hle, if_pos hsh]
        simpa using List.Sublist.cons₂ s.symbol
          (greedyAlloc_symbols_sublist rest
            (r - (pyint (r / s.current_price) : ℚ) * s.current_price))
      · rw [greedyAlloc, if_pos hle, if_neg hsh]
        exact List.Sublist.cons s.symbol (greedyAlloc_symbols_sublist rest r)
    · rw [greedyAlloc, if_neg hle]
      exact List.Sublist.cons s.symbol (greedyAlloc_symbols_sublist rest r)

/-- C6 amended: when the input records carry pairwise distinct symbols (and
nonzero prices, positive budget), no symbol appears twice in the returned
portfolio; with duplicate symbols in the input the portfolio can repeat a
symbol (see the counterexample). -/
theorem distinct_symbols_no_dup_lines (stocks : List ScoredAsset) (budget : ℚ)
    (hsym : (stocks.map ScoredAsset.symbol).Nodup)
    (hnz : ∀ s ∈ stocks, s.current_price ≠ 0) (hB : 0 < budget) :
    ∃ lines, optimize_portfolio stocks budget = .ok lines ∧
      (lines.map AllocationLine.symbol).Nodup := by
  have hz : (stocks.any (fun s => s.current_price = 0)) = false :=
    no_zero_price_any hnz
  refine ⟨greedyAlloc (sortByEfficiencyDesc stocks) budget, ?_, ?_⟩
  · unfold optimize_portfolio
    rw [hz]
    simp
  · have hperm : ((sortByEfficiencyDesc stocks).map ScoredAsset.symbol).Perm
        (stocks.map ScoredAsset.symbol) :=
      List.Perm.map ScoredAsset.symbol (List.mergeSort_perm stocks _)
    have hnodup : ((sortByEfficiencyDesc stocks).map ScoredAsset.symbol).Nodup :=
      (List.Perm.nodup_iff hperm).mpr hsym
    exact List.Nodup.sublist (greedyAlloc_symbols_sublist _ budget) hnodup

/-! ### C7 and C8: empty input, determinism -/

/-- C7: on the empty asset list with a positive budget, the allocator returns
an empty portfolio and the ranking an empty sequence, with no error. -/
theorem empty_input_safe (budget : ℚ) (hB : 0 < budget) :
    optimize_portfolio [] budget = .ok [] ∧
    get_budget_optimized_stocks [] budget = .ok ([], []) ∧
    affordable_single_stocks [] budget = .ok [] := by
  have hms : ([] : List ScoredAsset).mergeSort
      (fun a b => decide (efficiency b ≤ efficiency a)) = [] := List.mergeSort_nil
  have hms2 : ([] : List ScoredAsset).mergeSort
      (fun a b => decide (b.future_potential ≤ a.future_potential)) = [] :=
    List.mergeSort_nil
  refine ⟨?_, ?_, ?_⟩
  · unfold optimize_portfolio sortByEfficiencyDesc
    simp [hms, greedyAlloc]
  · unfold get_budget_optimized_stocks sortByEfficiencyDesc
    simp [hms, hms2, greedyAlloc]
  · unfold affordable_single_stocks get_budget_optimized_stocks sortByEfficiencyDesc
    simp [hms, hms2, greedyAlloc, Except.map]

/-- C8: both entry points are deterministic functions of the asset list
(including order) and the budget: equal inputs give equal outputs. -/
theorem allocator_deterministic (s1 s2 : List ScoredAsset) (b1 b2 : ℚ)
    (hs : s1 = s2) (hb : b1 = b2) :
    optimize_portfolio s1 b1 = optimize_portfolio s2 b2 ∧
    get_budget_optimized_stocks s1 b1 = get_budget_optimized_stocks s2 b2 ∧
    affordable_single_stocks s1 b1 = affordable_single_stocks s2 b2 := by
  subst hs
  subst hb
  exact ⟨rfl, rfl, rfl⟩

/-! ### Concrete evaluations -/

theorem pyint_eq {q : ℚ} {n : ℤ} (hn : 0 ≤ n) (h1 : (n:ℚ) ≤ q) (h2 : q < n + 1) :
    pyint q = n := by
  have hq : 0 ≤ q := le_trans (by exact_mod_cast hn) h1
  rw [pyint_of_nonneg hq]
  refine Int.floor_eq_iff.mpr ⟨h1, ?_⟩
  exact_mod_cast h2

theorem greedyAlloc_cons_sel {s : ScoredAsset} {rest : List ScoredAsset} {r : ℚ}
    {n : ℤ} (hle : s.current_price ≤ r) (hpy : pyint (r / s.current_price) = n)
    (hn : 0 < n) :
    greedyAlloc (s :: rest) r =
      { symbol := s.symbol, shares := n, cost := (n:ℚ) * s.current_price,
        potential_return := (n:ℚ) * s.current_price * s.future_potential / 100 }
        :: greedyAlloc rest (r - (n:ℚ) * s.current_price) := by
  rw [greedyAlloc, hpy, if_pos hle, if_pos hn]

theorem greedyAlloc_cons_skip {s : ScoredAsset} {rest : List ScoredAsset} {r : ℚ}
    (hle : ¬ s.current_price ≤ r) :
    greedyAlloc (s :: rest) r = greedyAlloc rest r := by
  rw [greedyAlloc, if_neg hle]

theorem demo_sorted : sortByEfficiencyDesc demoStocks =
    [⟨"B", 50, 15⟩, ⟨"A", 100, 20⟩] := by
  unfold sortByEfficiencyDesc demoStocks
  rw [mergeSort_pair, if_neg]
  simp only [efficiency, decide_eq_true_eq]
  norm_num

theorem demo_eval : optimize_portfolio demoStocks 120 =
    .ok [⟨"B", 2, 100, 15⟩] := by
  unfold optimize_portfolio
  rw [show (demoStocks.any fun s => decide (s.current_price = 0)) = false by
    norm_num [demoStocks]]
  simp only [Bool.false_eq_true, if_false, demo_sorted]
  rw [greedyAlloc_cons_sel (by norm_num)
    (pyint_eq (n := 2) (by norm_num) (by norm_num) (by norm_num)) (by norm_num)]
  rw [greedyAlloc_cons_skip (by norm_num)]
  show Except.ok _ = _
  rw [greedyAlloc]
  norm_num

theorem dup_sorted : sortByEfficiencyDesc dupStocks =
    [⟨"X", 50, 100⟩, ⟨"X", 10, 10⟩] := by
  unfold sortByEfficiencyDesc dupStocks
  rw [mergeSort_pair, if_pos]
  simp only [efficiency, decide_eq_true_eq]
  norm_num

theorem dup_eval : optimize_portfolio dupStocks 60 =
    .ok [⟨"X", 1, 50, 50⟩, ⟨"X", 1, 10, 1⟩] := by
  unfold optimize_portfolio
  rw [show (dupStocks.any fun s => decide (s.current_price = 0)) = false by
    norm_num [dupStocks]]
  simp only [Bool.false_eq_true, if_false, dup_sorted]
  rw [greedyAlloc_cons_sel (by norm_num)
    (pyint_eq (n := 1) (by norm_num) (by norm_num) (by norm_num)) (by norm_num)]
  rw [greedyAlloc_cons_sel (by norm_num)
    (pyint_eq (n := 1) (by norm_num) (by norm_num) (by norm_num)) (by norm_num)]
  show Except.ok _ = _
  rw [greedyAlloc]
  norm_num

/-- Records with a negative price next to a normal one. -/
def negStocks : List ScoredAsset :=
  [⟨"N", -5, 50⟩, ⟨"B", 50, 15⟩]

theorem demoStocks_prices_pos : ∀ s ∈ demoStocks, 0 < s.current_price := by
  intro s hs
  simp only [demoStocks, List.mem_cons, List.not_mem_nil, or_false] at hs
  rcases hs with rfl | rfl <;> norm_num

theorem demoStocks_prices_ne : ∀ s ∈ demoStocks, s.current_price ≠ 0 :=
  fun s hs => ne_of_gt (demoStocks_prices_pos s hs)

theorem negStocks_prices_ne : ∀ s ∈ negStocks, s.current_price ≠ 0 := by
  intro s hs
  simp only [negStocks, List.mem_cons, List.not_mem_nil, or_false] at hs
  rcases hs with rfl | rfl <;> norm_num

/-! ### C2: the spec's worked example -/

/-- C2 counterexample: on the spec's example input the portfolio is not
`[B: 2 shares, cost 100, potential return 30]` as the spec's example states. -/
theorem demo_portfolio_not_spec_example :
    optimize_portfolio demoStocks 120 ≠ .ok [⟨"B", 2, 100, 30⟩] := by
  rw [demo_eval]
  intro h
  norm_num at h

/-- C2 corrected: on assets A (price 100, potential 20) and B (price 50,
potential 15) with budget 120, the portfolio is exactly one line, B with
2 shares and cost 100, whose potential return is 15 (= 100 * 15 / 100), and
the total cost is 100; A is skipped since the remaining 20 is below 100. -/
theorem demo_portfolio_value :
    optimize_portfolio demoStocks 120 = .ok [⟨"B", 2, 100, 15⟩] ∧
    totalCost [⟨"B", 2, 100, 15⟩] = 100 :=
  ⟨demo_eval, by norm_num [totalCost]⟩

/-! ### C5 counterexample: a zero price raises -/

/-- C5 counterexample: a record with `current_price = 0` is not silently
excluded; both functions raise `ZeroDivisionError` on it. -/
theorem zero_price_raises :
    optimize_portfolio zeroPriceStocks 100 = .error "ZeroDivisionError" ∧
    get_budget_optimized_stocks zeroPriceStocks 100 = .error "ZeroDivisionError" := by
  have h : (zeroPriceStocks.any fun s => decide (s.current_price = 0)) = true := by
    norm_num [zeroPriceStocks]
  constructor
  · unfold optimize_portfolio
    rw [h]
    simp
  · unfold get_budget_optimized_stocks
    rw [h]
    simp

/-! ### C6 counterexample: duplicate symbols pass through -/

/-- C6 counterexample: with the symbol X appearing twice in the input at
different prices and budget 60, the returned portfolio repeats the symbol X. -/
theorem dup_symbol_repeated :
    optimize_portfolio dupStocks 60 = .ok [⟨"X", 1, 50, 50⟩, ⟨"X", 1, 10, 1⟩] ∧
    ¬ (([⟨"X", 1, 50, 50⟩, ⟨"X", 1, 10, 1⟩] : List AllocationLine).map
        AllocationLine.symbol).Nodup :=
  ⟨dup_eval, by simp⟩

/-! ### Witnesses -/

theorem optimize_portfolio_eq_specGreedy_witness :
    (∀ s ∈ demoStocks, 0 < s.current_price) ∧ ((0:ℚ) < 120) ∧
    optimize_portfolio demoStocks 120 = .ok (specGreedy demoStocks 120) :=
  ⟨demoStocks_prices_pos, by norm_num,
    optimize_portfolio_eq_specGreedy demoStocks 120 demoStocks_prices_pos
      (by norm_num)⟩

theorem optimize_portfolio_budget_safe_witness :
    (∀ s ∈ demoStocks, 0 < s.current_price) ∧ ((0:ℚ) < 120) ∧
    ∃ lines, optimize_portfolio demoStocks 120 = .ok lines ∧
      (∀ line ∈ lines, 1 ≤ line.shares) ∧
      budgetChainB 120 lines = true ∧
      totalCost lines ≤ 120 :=
  ⟨demoStocks_prices_pos, by norm_num,
    optimize_portfolio_budget_safe demoStocks 120 demoStocks_prices_pos
      (by norm_num)⟩

theorem affordable_single_stocks_eq_spec_witness :
    demoStocks ≠ [] ∧ (∀ s ∈ demoStocks, 0 < s.current_price) ∧ ((0:ℚ) < 60) ∧
    (affordable_single_stocks demoStocks 60 = .ok (rank_single_spec demoStocks 60) ∧
      ((∀ s ∈ demoStocks, ¬ s.current_price ≤ 60) →
        rank_single_spec demoStocks 60 = [])) :=
  ⟨by simp [demoStocks], demoStocks_prices_pos, by norm_num,
    affordable_single_stocks_eq_spec demoStocks 60 (by simp [demoStocks])
      demoStocks_prices_pos (by norm_num)⟩

theorem nonzero_prices_never_raise_witness :
    (∀ s ∈ negStocks, s.current_price ≠ 0) ∧ ((0:ℚ) < 120) ∧
    (optimize_portfolio negStocks 120 =
      .ok (greedyAlloc ((sortByEfficiencyDesc negStocks).filter
        (fun s => decide (0 < s.current_price))) 120) ∧
    ∃ pr, get_budget_optimized_stocks negStocks 120 = .ok pr ∧
      ∀ s ∈ pr.1, 0 < s.current_price) :=
  ⟨negStocks_prices_ne, by norm_num,
    nonzero_prices_never_raise negStocks 120 negStocks_prices_ne (by norm_num)⟩

theorem distinct_symbols_no_dup_lines_witness :
    (demoStocks.map ScoredAsset.symbol).Nodup ∧
    (∀ s ∈ demoStocks, s.current_price ≠ 0) ∧ ((0:ℚ) < 120) ∧
    ∃ lines, optimize_portfolio demoStocks 120 = .ok lines ∧
      (lines.map AllocationLine.symbol).Nodup :=
  ⟨by simp [demoStocks], demoStocks_prices_ne, by norm_num,
    distinct_symbols_no_dup_lines demoStocks 120 (by simp [demoStocks])
      demoStocks_prices_ne (by norm_num)⟩

theorem empty_input_safe_witness :
    ((0:ℚ) < 100) ∧
    (optimize_portfolio [] 100 = .ok [] ∧
      get_budget_optimized_stocks [] 100 = .ok ([], []) ∧
      affordable_single_stocks [] 100 = .ok []) :=
  ⟨by norm_num, empty_input_safe 100 (by norm_num)⟩

theorem allocator_deterministic_witness :
    demoStocks = demoStocks ∧ ((120:ℚ) = 120) ∧
    (optimize_portfolio demoStocks 120 = optimize_portfolio demoStocks 120 ∧
      get_budget_optimized_stocks demoStocks 120 =
        get_budget_optimized_stocks demoStocks 120 ∧
      affordable_single_stocks demoStocks 120 =
        affordable_single_stocks demoStocks 120) :=
  ⟨rfl, rfl, allocator_deterministic demoStocks demoStocks 120 120 rfl rfl⟩

theorem optimize_portfolio_selections_maximal_witness :
    (∀ s ∈ demoStocks, 0 < s.current_price) ∧ ((0:ℚ) < 120) ∧
    ∃ lines, optimize_portfolio demoStocks 120 = .ok lines ∧
      dropChainB 120 lines = true ∧
      lines.Pairwise (fun a b => b.cost < a.cost) :=
  ⟨demoStocks_prices_pos, by norm_num,
    optimize_portfolio_selections_maximal demoStocks 120 demoStocks_prices_pos
      (by norm_num)⟩
